import Mathlib

/-!
# Legion runtime types: constants, enumerations and the field-mask instantiation

A shallow embedding of `runtime/legion_types.h`.  Preprocessor constants become
natural-number definitions, enumerations become inductive types of enumerator
names together with the integer each enumerator is given in the header, and
the `FieldMask` typedef is followed into models of the bit-mask class templates
it can be instantiated from and of the compressed run-length storage of a mask.
-/

namespace Legion

/-! ## Preprocessor constants (legion_types.h, lines 44-76) -/

/-- Line 46: `#define MAX_FIELDS 2048 // must be divisible by 2^FIELD_SHIFT`. -/
def MAX_FIELDS : Nat := 2048

/-- Line 47: `#define FIELD_LOG2 11 // log2(MAX_FIELDS)`. -/
def FIELD_LOG2 : Nat := 11

/-- Line 50: `#define FIELD_TYPE uint64_t`; the header fixes the word type, and
this is the number of bits of that fixed-width unsigned type. -/
def FIELD_TYPE_BITS : Nat := 64

/-- Line 51: `#define FIELD_SHIFT 6`. -/
def FIELD_SHIFT : Nat := 6

/-- Line 52: `#define FIELD_MASK 0x3F`. -/
def FIELD_MASK : Nat := 0x3F

/-- Line 53: `#define FIELD_ALL_ONES 0xFFFFFFFFFFFFFFFF`. -/
def FIELD_ALL_ONES : Nat := 0xFFFFFFFFFFFFFFFF

/-- Line 64: `#define DEFAULT_MAX_TASK_WINDOW 4096`
(maximum number of sub-tasks per task at a time). -/
def DEFAULT_MAX_TASK_WINDOW : Nat := 4096

/-! ## Enumerations (legion_types.h, lines 190-243) -/

/-- Enumerators of `enum PrivilegeMode` (lines 190-197), by name. -/
inductive PrivilegeMode where
  | NO_ACCESS
  | READ_ONLY
  | READ_WRITE
  | WRITE_ONLY
  | WRITE_DISCARD
  | REDUCE
  deriving DecidableEq

/-- The integer the header assigns to each `PrivilegeMode` enumerator. -/
def PrivilegeMode.val : PrivilegeMode → Nat
  | .NO_ACCESS     => 0x00000000
  | .READ_ONLY     => 0x00000001
  | .READ_WRITE    => 0x00000111
  | .WRITE_ONLY    => 0x00000010
  | .WRITE_DISCARD => 0x00000010
  | .REDUCE        => 0x00000100

/-- Enumerators of `enum DependenceType` (lines 229-235). -/
inductive DependenceType where
  | NO_DEPENDENCE
  | TRUE_DEPENDENCE
  | ANTI_DEPENDENCE
  | ATOMIC_DEPENDENCE
  | SIMULTANEOUS_DEPENDENCE
  deriving DecidableEq

/-- The integer the header assigns to each `DependenceType` enumerator. -/
def DependenceType.val : DependenceType → Nat
  | .NO_DEPENDENCE           => 0
  | .TRUE_DEPENDENCE         => 1
  | .ANTI_DEPENDENCE         => 2
  | .ATOMIC_DEPENDENCE       => 3
  | .SIMULTANEOUS_DEPENDENCE => 4

/-- Enumerators of `enum OpenState` (lines 237-243). -/
inductive OpenState where
  | NOT_OPEN
  | OPEN_READ_ONLY
  | OPEN_READ_WRITE
  | OPEN_SINGLE_REDUCE
  | OPEN_MULTI_REDUCE
  deriving DecidableEq

/-- The integer the header assigns to each `OpenState` enumerator. -/
def OpenState.val : OpenState → Nat
  | .NOT_OPEN           => 0
  | .OPEN_READ_ONLY     => 1
  | .OPEN_READ_WRITE    => 2
  | .OPEN_SINGLE_REDUCE => 3
  | .OPEN_MULTI_REDUCE  => 4

/-! ## The field-mask instantiation (legion_types.h, lines 394-397 and 457-458)

The header only forward-declares the two class templates
`BitMask<T,MAX,SHIFT,MASK>` and `TLBitMask<T,MAX,SHIFT,MASK>`; their bodies are
in `legion_utilities.h`, which is not among the sources.  The definitions of
this section are therefore models, at the instantiation
`<FIELD_TYPE, MAX_FIELDS, FIELD_SHIFT, FIELD_MASK>` that the typedef uses.
A word of type `FIELD_TYPE` is a natural number below `2 ^ FIELD_TYPE_BITS`.
-/

/-- Modelled from the spec: the number of `FIELD_TYPE` words of a mask, whose
declaration is in the missing class bodies.  The header comment on line 46
("must be divisible by 2^FIELD_SHIFT") and the template parameters `MAX` and
`SHIFT` give `MAX >> SHIFT`; the spec calls it the "bounded word count". -/
def BIT_ELMTS : Nat := MAX_FIELDS >>> FIELD_SHIFT

/-- Modelled from the spec: bitwise complement `~x` of a `FIELD_TYPE` word, as
used by the missing subtraction operators ("subtract" in spec section 4.1). -/
def word_not (x : Nat) : Nat := FIELD_ALL_ONES ^^^ x

/-- Modelled from the spec: bitwise OR of all words of a mask, the loop that the
missing `TLBitMask` body uses to summarise its first level. -/
def or_words (bv : Fin BIT_ELMTS → Nat) : Nat :=
  (List.finRange BIT_ELMTS).foldl (fun acc i => acc ||| bv i) 0

/-- Modelled from the spec: the missing body of class template `BitMask`
(forward-declared on lines 394-395), the uncompressed representation: a
"fixed-capacity bitset over field identifiers" held in a bounded number of
words, `T bit_vector[MAX >> SHIFT]`. -/
structure BitMask where
  bit_vector : Fin BIT_ELMTS → Nat

/-- Modelled from the spec: a `BitMask` value of the program has every word in
the range of `FIELD_TYPE`. -/
def BitMask.wf (a : BitMask) : Prop := ∀ i, a.bit_vector i < 2 ^ FIELD_TYPE_BITS

/-- Modelled from the spec: "construct empty" for the missing `BitMask` body. -/
def BitMask.empty : BitMask := ⟨fun _ => 0⟩

/-- Modelled from the spec: `is_empty` of the missing `BitMask` body, a scan
over all words. -/
def BitMask.is_empty (a : BitMask) : Bool :=
  (List.finRange BIT_ELMTS).all (fun i => a.bit_vector i == 0)

/-- Modelled from the spec: `is_set(i)` of the missing `BitMask` body: word
`bit >> SHIFT`, bit `bit & MASK`.  An index outside the array (the missing body
can only assert against it) reads as not set. -/
def BitMask.is_set (a : BitMask) (bit : Nat) : Bool :=
  if h : bit >>> FIELD_SHIFT < BIT_ELMTS then
    (a.bit_vector ⟨bit >>> FIELD_SHIFT, h⟩ &&& (1 <<< (bit &&& FIELD_MASK))) != 0
  else false

/-- Modelled from the spec: "union" of the missing `BitMask` body, word by word. -/
def BitMask.union (a b : BitMask) : BitMask :=
  ⟨fun i => a.bit_vector i ||| b.bit_vector i⟩

/-- Modelled from the spec: "intersect" of the missing `BitMask` body. -/
def BitMask.intersect (a b : BitMask) : BitMask :=
  ⟨fun i => a.bit_vector i &&& b.bit_vector i⟩

/-- Modelled from the spec: "subtract" of the missing `BitMask` body. -/
def BitMask.subtract (a b : BitMask) : BitMask :=
  ⟨fun i => a.bit_vector i &&& word_not (b.bit_vector i)⟩

/-- Modelled from the spec: the missing body of class template `TLBitMask`
(forward-declared on lines 396-397), the two-level class that `FieldMask` is
typedef-ed to.  It takes the same four parameters as `BitMask`, so it is
modelled as the same word array plus a second level: one summary word of type
`T` that is the OR of all first-level words and lets tests on sparse masks
finish without a scan. -/
structure TLBitMask where
  bit_vector : Fin BIT_ELMTS → Nat
  sum_mask : Nat

/-- Modelled from the spec: the class invariant of the missing `TLBitMask` body:
every word is in the range of `FIELD_TYPE` and the summary word is the OR of
the words. -/
def TLBitMask.wf (A : TLBitMask) : Prop :=
  (∀ i, A.bit_vector i < 2 ^ FIELD_TYPE_BITS) ∧ A.sum_mask = or_words A.bit_vector

/-- Modelled from the spec: "construct empty" for the missing `TLBitMask` body. -/
def TLBitMask.empty : TLBitMask := ⟨fun _ => 0, 0⟩

/-- Modelled from the spec: `is_empty` of the missing `TLBitMask` body; only the
summary word is inspected. -/
def TLBitMask.is_empty (A : TLBitMask) : Bool := A.sum_mask == 0

/-- Modelled from the spec: `is_set(i)` of the missing `TLBitMask` body. -/
def TLBitMask.is_set (A : TLBitMask) (bit : Nat) : Bool :=
  if h : bit >>> FIELD_SHIFT < BIT_ELMTS then
    (A.bit_vector ⟨bit >>> FIELD_SHIFT, h⟩ &&& (1 <<< (bit &&& FIELD_MASK))) != 0
  else false

/-- Modelled from the spec: "union" of the missing `TLBitMask` body; the summary
of the result is the OR of the two summaries, no scan needed. -/
def TLBitMask.union (A B : TLBitMask) : TLBitMask :=
  ⟨fun i => A.bit_vector i ||| B.bit_vector i, A.sum_mask ||| B.sum_mask⟩

/-- Modelled from the spec: "intersect" of the missing `TLBitMask` body; when the
two summaries share no bit the masks are disjoint and the empty mask is
returned without looking at the words. -/
def TLBitMask.intersect (A B : TLBitMask) : TLBitMask :=
  if A.sum_mask &&& B.sum_mask != 0 then
    ⟨fun i => A.bit_vector i &&& B.bit_vector i,
      or_words (fun i => A.bit_vector i &&& B.bit_vector i)⟩
  else TLBitMask.empty

/-- Modelled from the spec: "subtract" of the missing `TLBitMask` body; the
summary is recomputed from the result words. -/
def TLBitMask.subtract (A B : TLBitMask) : TLBitMask :=
  ⟨fun i => A.bit_vector i &&& word_not (B.bit_vector i),
    or_words (fun i => A.bit_vector i &&& word_not (B.bit_vector i))⟩

/-- Modelled from the spec: the equality test `==` of the missing `TLBitMask`
body; summaries are compared first, then the words. -/
def TLBitMask.eq (A B : TLBitMask) : Bool :=
  A.sum_mask == B.sum_mask &&
    (List.finRange BIT_ELMTS).all (fun i => A.bit_vector i == B.bit_vector i)

/-- The two-level mask that holds a given bit pattern: its words, summarised. -/
def TLBitMask.ofBitMask (a : BitMask) : TLBitMask :=
  ⟨a.bit_vector, or_words a.bit_vector⟩

/-- Line 458: `typedef TLBitMask<FIELD_TYPE,MAX_FIELDS,FIELD_SHIFT,FIELD_MASK>
FieldMask;` (line 457, commented out, is the same typedef with `BitMask`). -/
abbrev FieldMask := TLBitMask

/-! ## The compressed run-length form (spec sections 2, 3 and 4.1)

The spec gives the field mask "a compressed run-length variant for sparse field
sets", whose operations cost O(#runs) and whose results must be bit-identical
to those of the uncompressed form.  No body of it is among the sources either.
The header fixes word parameters for its class templates, while the spec
describes the compressed storage by its runs; it is therefore modelled on its
own, as the list of the runs of a mask, with every operation one pass over the
runs, and related to the word array of `BitMask` by decoding.
-/

/-- Modelled from the spec: one run of the compressed run-length variant, whose
class body is missing: `len` consecutive field slots that are all set
(`value = true`) or all clear. -/
structure Run where
  value : Bool
  len : Nat
  deriving DecidableEq

/-- Modelled from the spec: the number of field slots a list of runs covers. -/
def Run.total : List Run → Nat
  | [] => 0
  | r :: rs => r.len + Run.total rs

/-- Modelled from the spec: the state of slot `i` in a list of runs that starts
at slot 0, found by walking the runs; slots past the last run are clear. -/
def Run.test : List Run → Nat → Bool
  | [], _ => false
  | r :: rs, i => if i < r.len then r.value else Run.test rs (i - r.len)

/-- Modelled from the spec: a list of runs is in run-length form when no run is
of length zero and neighbouring runs differ in state, so that every run is
maximal and the list is as short as the bit pattern allows. -/
def Run.canonical : List Run → Bool
  | [] => true
  | [r] => decide (0 < r.len)
  | r :: s :: rs => decide (0 < r.len) && (r.value != s.value) && Run.canonical (s :: rs)

/-- Modelled from the spec: put `n` slots of state `v` in front of a list of
runs, extending its first run when that has the same state. -/
def Run.push (v : Bool) (n : Nat) (rs : List Run) : List Run :=
  if n = 0 then rs
  else match rs with
    | [] => [⟨v, n⟩]
    | r :: rest => if r.value = v then ⟨v, n + r.len⟩ :: rest else ⟨v, n⟩ :: r :: rest

/-- Modelled from the spec: the end of the merge pass, when the left mask has
no run left: the remaining right runs are combined with clear slots. -/
def Run.combineTail (f : Bool → Bool → Bool) : List Run → List Run
  | [] => []
  | b :: bs => Run.push (f false b.value) b.len (Run.combineTail f bs)

/-- Modelled from the spec: the inner loop of the merge pass: `n` slots of
state `av` of the left mask are combined with the right runs they overlap; a
right run that reaches past them is split, and `k` continues with the left
runs that follow. -/
def Run.combineRun (f : Bool → Bool → Bool) (av : Bool) (k : List Run → List Run) :
    Nat → List Run → List Run
  | n, [] => Run.push (f av false) n (k [])
  | n, b :: bs =>
    if n < b.len then Run.push (f av b.value) n (k (⟨b.value, b.len - n⟩ :: bs))
    else Run.push (f av b.value) b.len (Run.combineRun f av k (n - b.len) bs)

/-- Modelled from the spec: the merge pass shared by union, intersection and
difference of the compressed variant: both run lists are walked once, in slot
order, and `f` gives the state of each stretch of the result ("O(#runs) cost"). -/
def Run.combine (f : Bool → Bool → Bool) : List Run → List Run → List Run
  | [], bs => Run.combineTail f bs
  | a :: as, bs => Run.combineRun f a.value (Run.combine f as) a.len bs

/-- Modelled from the spec: a field mask in the compressed run-length variant
(spec sections 2, 3 and 4.1), whose class body is missing: its runs in slot
order, from slot 0. -/
structure RunMask where
  runs : List Run
  deriving DecidableEq

/-- Modelled from the spec: a compressed mask of the program covers exactly the
`MAX_FIELDS` slots of the fixed capacity and is in run-length form. -/
def RunMask.wf (A : RunMask) : Prop :=
  Run.total A.runs = MAX_FIELDS ∧ Run.canonical A.runs = true

/-- The invariant of a compressed mask can be checked by evaluation. -/
instance RunMask.decidable_wf (A : RunMask) : Decidable A.wf :=
  inferInstanceAs (Decidable (Run.total A.runs = MAX_FIELDS ∧ Run.canonical A.runs = true))

/-- Modelled from the spec: "construct empty" in the compressed variant: one
clear run over the whole capacity. -/
def RunMask.empty : RunMask := ⟨[⟨false, MAX_FIELDS⟩]⟩

/-- Modelled from the spec: `is_empty` of the compressed variant: no run of
set slots. -/
def RunMask.is_empty (A : RunMask) : Bool :=
  A.runs.all (fun r => !r.value || r.len == 0)

/-- Modelled from the spec: `is_set(i)` of the compressed variant. -/
def RunMask.is_set (A : RunMask) (bit : Nat) : Bool := Run.test A.runs bit

/-- Modelled from the spec: "union" of the compressed variant. -/
def RunMask.union (A B : RunMask) : RunMask :=
  ⟨Run.combine (fun x y => x || y) A.runs B.runs⟩

/-- Modelled from the spec: "intersect" of the compressed variant. -/
def RunMask.intersect (A B : RunMask) : RunMask :=
  ⟨Run.combine (fun x y => x && y) A.runs B.runs⟩

/-- Modelled from the spec: "subtract" of the compressed variant. -/
def RunMask.subtract (A B : RunMask) : RunMask :=
  ⟨Run.combine (fun x y => x && !y) A.runs B.runs⟩

/-- The compressed form of an uncompressed mask: its slots, in order, gathered
into maximal runs. -/
def RunMask.ofBitMask (a : BitMask) : RunMask :=
  ⟨(List.range MAX_FIELDS).foldr (fun i acc => Run.push (a.is_set i) 1 acc) []⟩

/-! ### Concrete bit patterns -/

/-- Every even field: the alternating pattern in each of the 32 words. -/
def sample_alternating : FieldMask :=
  ⟨fun _ => 0x5555555555555555, 0x5555555555555555⟩

/-- Every field set. -/
def sample_full : FieldMask := ⟨fun _ => FIELD_ALL_ONES, FIELD_ALL_ONES⟩

/-- A bit of an OR-fold is set iff it is set in the start value or in some folded word. -/
theorem testBit_foldl_or {α : Type} (l : List α) (f : α → Nat) (init k : Nat) :
    (l.foldl (fun acc i => acc ||| f i) init).testBit k
      = (init.testBit k || l.any (fun i => (f i).testBit k)) := by
  induction l generalizing init with
  | nil => simp
  | cons x xs ih => simp [ih, Bool.or_assoc]

/-- A bit of the summary is set iff it is set in some word. -/
theorem testBit_or_words (bv : Fin BIT_ELMTS → Nat) (k : Nat) :
    (or_words bv).testBit k = true ↔ ∃ i, (bv i).testBit k = true := by
  simp [or_words, testBit_foldl_or, List.any_eq_true]

/-- The summary is zero exactly when every word is zero. -/
theorem or_words_eq_zero (bv : Fin BIT_ELMTS → Nat) :
    or_words bv = 0 ↔ ∀ i, bv i = 0 := by
  constructor
  · intro h i
    apply Nat.eq_of_testBit_eq
    intro k
    rw [Nat.zero_testBit]
    by_contra hk
    have : (or_words bv).testBit k = true := (testBit_or_words bv k).2 ⟨i, by simpa using hk⟩
    rw [h] at this
    simp at this
  · intro h
    apply Nat.eq_of_testBit_eq
    intro k
    rw [Nat.zero_testBit]
    by_contra hk
    obtain ⟨i, hi⟩ := (testBit_or_words bv k).1 (by simpa using hk)
    rw [h i] at hi
    simp at hi

/-- The summary of a word-wise OR is the OR of the summaries. -/
theorem or_words_or (a b : Fin BIT_ELMTS → Nat) :
    or_words (fun i => a i ||| b i) = or_words a ||| or_words b := by
  apply Nat.eq_of_testBit_eq
  intro k
  rw [Bool.eq_iff_iff, Nat.testBit_or, Bool.or_eq_true, testBit_or_words, testBit_or_words,
    testBit_or_words]
  simp only [Nat.testBit_or, Bool.or_eq_true]
  constructor
  · rintro ⟨i, h | h⟩
    · exact Or.inl ⟨i, h⟩
    · exact Or.inr ⟨i, h⟩
  · rintro (⟨i, h⟩ | ⟨i, h⟩)
    · exact ⟨i, Or.inl h⟩
    · exact ⟨i, Or.inr h⟩

/-- Disjoint summaries force disjoint words. -/
theorem and_eq_zero_of_or_words (a b : Fin BIT_ELMTS → Nat)
    (h : or_words a &&& or_words b = 0) (i : Fin BIT_ELMTS) : a i &&& b i = 0 := by
  apply Nat.eq_of_testBit_eq
  intro k
  rw [Nat.zero_testBit]
  by_contra hk
  have hk2 : (a i).testBit k = true ∧ (b i).testBit k = true := by
    simpa using hk
  have : (or_words a &&& or_words b).testBit k = true := by
    rw [Nat.testBit_and, Bool.and_eq_true]
    exact ⟨(testBit_or_words a k).2 ⟨i, hk2.1⟩, (testBit_or_words b k).2 ⟨i, hk2.2⟩⟩
  rw [h] at this
  simp at this

/-- Absorption on words. -/
theorem word_or_and_self (a b : Nat) : (a ||| b) &&& a = a := by
  apply Nat.eq_of_testBit_eq
  intro k
  simp
  cases (a.testBit k) <;> simp

/-- A word of `FIELD_TYPE` has no bit in common with its complement. -/
theorem word_and_not_self (a : Nat) (h : a < 2 ^ FIELD_TYPE_BITS) : a &&& word_not a = 0 := by
  apply Nat.eq_of_testBit_eq
  intro k
  have hall : FIELD_ALL_ONES = 2 ^ 64 - 1 := by decide
  simp only [word_not, hall, Nat.testBit_and, Nat.testBit_xor, Nat.testBit_two_pow_sub_one,
    Nat.zero_testBit]
  by_cases hk : k < 64
  · simp [hk]
  · have : a.testBit k = false := by
      apply Nat.testBit_lt_two_pow
      exact lt_of_lt_of_le h (Nat.pow_le_pow_right (by decide) (by simp [FIELD_TYPE_BITS]; omega))
    simp [this]


/-- The summary of the all-zero word array is zero. -/
theorem or_words_zero : or_words (fun _ => 0) = 0 :=
  (or_words_eq_zero _).2 (fun _ => rfl)

/-- The empty two-level mask satisfies the class invariant. -/
theorem TLBitMask.wf_empty : TLBitMask.empty.wf :=
  ⟨fun _ => Nat.two_pow_pos _, or_words_zero.symm⟩

/-- Union keeps the class invariant. -/
theorem TLBitMask.wf_union (A B : TLBitMask) (hA : A.wf) (hB : B.wf) : (A.union B).wf := by
  refine ⟨fun i => Nat.or_lt_two_pow (hA.1 i) (hB.1 i), ?_⟩
  show A.sum_mask ||| B.sum_mask = or_words (fun i => A.bit_vector i ||| B.bit_vector i)
  rw [or_words_or, hA.2, hB.2]

/-- Intersection keeps the class invariant. -/
theorem TLBitMask.wf_intersect (A B : TLBitMask) (hA : A.wf) : (A.intersect B).wf := by
  unfold TLBitMask.intersect
  split
  · exact ⟨fun i => lt_of_le_of_lt Nat.and_le_left (hA.1 i), rfl⟩
  · exact TLBitMask.wf_empty

/-- Difference keeps the class invariant. -/
theorem TLBitMask.wf_subtract (A B : TLBitMask) (hA : A.wf) : (A.subtract B).wf :=
  ⟨fun i => lt_of_le_of_lt Nat.and_le_left (hA.1 i), rfl⟩

/-- On invariant-satisfying masks the short cut of `intersect` returns the word-wise AND. -/
theorem TLBitMask.intersect_words (A B : TLBitMask) (hA : A.wf) (hB : B.wf) :
    (A.intersect B).bit_vector = fun i => A.bit_vector i &&& B.bit_vector i := by
  unfold TLBitMask.intersect
  split
  · rfl
  · next h =>
    have h0 : A.sum_mask &&& B.sum_mask = 0 := by simpa using h
    rw [hA.2, hB.2] at h0
    funext i
    exact (and_eq_zero_of_or_words _ _ h0 i).symm

/-- Every in-range bit pattern has a two-level form that satisfies the class invariant. -/
theorem TLBitMask.wf_of_pattern (a : BitMask) (ha : a.wf) : (TLBitMask.ofBitMask a).wf :=
  ⟨ha, rfl⟩

/-- The equality test is reflexive. -/
theorem TLBitMask.eq_self (A : TLBitMask) : A.eq A = true := by
  simp [TLBitMask.eq]

/-! ## Field masks: theorems -/

/-- C1: for every pair of FieldMask values `A` and `B` (two-level masks over 32
words of 64 bits that satisfy the class invariant), intersecting the union of
`A` and `B` with `A` gives back `A`, and subtracting `A` from itself gives the
empty mask; the equality and emptiness tests of the class report the same. -/
theorem fieldmask_absorption (A B : FieldMask) (hA : A.wf) :
    (A.union B).intersect A = A ∧
    ((A.union B).intersect A).eq A = true ∧
    A.subtract A = TLBitMask.empty ∧
    (A.subtract A).eq TLBitMask.empty = true ∧
    (A.subtract A).is_empty = true := by
  have h1 : (A.union B).intersect A = A := by
    obtain ⟨bv, s⟩ := A
    have hs : s = or_words bv := hA.2
    simp only [TLBitMask.union, TLBitMask.intersect, word_or_and_self]
    split
    · rw [hs]
    · next h =>
      have h0 : s = 0 := by simpa using h
      have hz : ∀ i, bv i = 0 := (or_words_eq_zero bv).1 (hs ▸ h0)
      have : bv = fun _ => 0 := funext hz
      rw [this, h0]; rfl
  have h2 : A.subtract A = TLBitMask.empty := by
    have hw : (fun i => A.bit_vector i &&& word_not (A.bit_vector i)) = fun _ => 0 :=
      funext (fun i => word_and_not_self _ (hA.1 i))
    simp only [TLBitMask.subtract, hw, or_words_zero]
    rfl
  refine ⟨h1, ?_, h2, ?_, ?_⟩
  · rw [h1]; exact TLBitMask.eq_self A
  · rw [h2]; exact TLBitMask.eq_self _
  · rw [h2]; rfl

/-- Witness for C1 on the alternating pattern and the full mask. -/
theorem fieldmask_absorption_witness :
    sample_alternating.wf ∧
    (sample_alternating.union sample_full).intersect sample_alternating = sample_alternating ∧
    sample_alternating.subtract sample_alternating = TLBitMask.empty :=
  ⟨⟨fun _ => (by decide : 0x5555555555555555 < 2 ^ FIELD_TYPE_BITS), by decide⟩,
    (fieldmask_absorption sample_alternating sample_full
      ⟨fun _ => (by decide : 0x5555555555555555 < 2 ^ FIELD_TYPE_BITS), by decide⟩).1,
    (fieldmask_absorption sample_alternating sample_full
      ⟨fun _ => (by decide : 0x5555555555555555 < 2 ^ FIELD_TYPE_BITS), by decide⟩).2.2.1⟩

/-! ## The compressed run-length form: lemmas -/

/-- C3: `MAX_FIELDS` is divisible by `2^FIELD_SHIFT`; the capacity is covered by
exactly `MAX_FIELDS >> FIELD_SHIFT = 32` whole words of `2^FIELD_SHIFT = 64`
bits, none of them incomplete. -/
theorem max_fields_whole_words :
    MAX_FIELDS % 2 ^ FIELD_SHIFT = 0 ∧
    MAX_FIELDS >>> FIELD_SHIFT = 32 ∧
    2 ^ FIELD_SHIFT = 64 ∧
    (MAX_FIELDS >>> FIELD_SHIFT) * 2 ^ FIELD_SHIFT = MAX_FIELDS ∧
    32 * 64 = MAX_FIELDS := by
  simp [MAX_FIELDS, FIELD_SHIFT, Nat.shiftRight_eq_div_pow]

/-- C4: `FIELD_LOG2` is the base-2 logarithm of `MAX_FIELDS`: `2^11 = 2048`
exactly, and every field index below `MAX_FIELDS` fits in `FIELD_LOG2` bits
(it is below `2^FIELD_LOG2` and has no bit at position `FIELD_LOG2` or above). -/
theorem field_log2_exact :
    2 ^ FIELD_LOG2 = MAX_FIELDS ∧
    FIELD_LOG2 = 11 ∧ MAX_FIELDS = 2048 ∧
    Nat.log 2 MAX_FIELDS = FIELD_LOG2 ∧
    ∀ i : Nat, i < MAX_FIELDS →
      i < 2 ^ FIELD_LOG2 ∧ i >>> FIELD_LOG2 = 0 ∧
      ∀ k : Nat, FIELD_LOG2 ≤ k → i.testBit k = false := by
  refine ⟨by decide, rfl, rfl, ?_, ?_⟩
  · have h : MAX_FIELDS = 2 ^ FIELD_LOG2 := by decide
    rw [h, Nat.log_pow (by decide)]
  · intro i hi
    have hlt : i < 2 ^ FIELD_LOG2 := by
      have h : 2 ^ FIELD_LOG2 = MAX_FIELDS := by decide
      omega
    refine ⟨hlt, ?_, ?_⟩
    · rw [Nat.shiftRight_eq_div_pow]
      exact Nat.div_eq_of_lt hlt
    · intro k hk
      apply Nat.testBit_lt_two_pow
      exact lt_of_lt_of_le hlt (Nat.pow_le_pow_right (by decide) hk)

/-- Witness for C4 at field index 2047, the largest one. -/
theorem field_log2_exact_witness :
    2047 < MAX_FIELDS ∧ 2047 < 2 ^ FIELD_LOG2 ∧ 2047 >>> FIELD_LOG2 = 0 :=
  ⟨by decide, (field_log2_exact.2.2.2.2 2047 (by decide)).1,
    (field_log2_exact.2.2.2.2 2047 (by decide)).2.1⟩

/-- C5: the default task window is positive and in the low thousands:
it equals 4096, which is at least 1000 and less than 10000. -/
theorem default_task_window_low_thousands :
    DEFAULT_MAX_TASK_WINDOW = 4096 ∧ 0 < DEFAULT_MAX_TASK_WINDOW ∧
    1000 ≤ DEFAULT_MAX_TASK_WINDOW ∧ DEFAULT_MAX_TASK_WINDOW < 10000 := by
  decide

/-- C6: `WRITE_ONLY` and `WRITE_DISCARD` are the same privilege value, and
`READ_ONLY`, `READ_WRITE`, `WRITE_DISCARD`, `REDUCE` are pairwise distinct
values, each different from `NO_ACCESS`. -/
theorem privilege_values :
    PrivilegeMode.WRITE_ONLY.val = PrivilegeMode.WRITE_DISCARD.val ∧
    [PrivilegeMode.NO_ACCESS.val, PrivilegeMode.READ_ONLY.val,
      PrivilegeMode.READ_WRITE.val, PrivilegeMode.WRITE_DISCARD.val,
      PrivilegeMode.REDUCE.val].Nodup ∧
    PrivilegeMode.READ_ONLY.val ≠ PrivilegeMode.READ_WRITE.val ∧
    PrivilegeMode.READ_ONLY.val ≠ PrivilegeMode.WRITE_DISCARD.val ∧
    PrivilegeMode.READ_ONLY.val ≠ PrivilegeMode.REDUCE.val ∧
    PrivilegeMode.READ_WRITE.val ≠ PrivilegeMode.WRITE_DISCARD.val ∧
    PrivilegeMode.READ_WRITE.val ≠ PrivilegeMode.REDUCE.val ∧
    PrivilegeMode.WRITE_DISCARD.val ≠ PrivilegeMode.REDUCE.val ∧
    PrivilegeMode.READ_ONLY.val ≠ PrivilegeMode.NO_ACCESS.val ∧
    PrivilegeMode.READ_WRITE.val ≠ PrivilegeMode.NO_ACCESS.val ∧
    PrivilegeMode.WRITE_DISCARD.val ≠ PrivilegeMode.NO_ACCESS.val ∧
    PrivilegeMode.REDUCE.val ≠ PrivilegeMode.NO_ACCESS.val := by
  decide

/-- C7: `OpenState` has exactly the five classifications `NOT_OPEN`,
`OPEN_READ_ONLY`, `OPEN_READ_WRITE`, `OPEN_SINGLE_REDUCE`, `OPEN_MULTI_REDUCE`;
their encodings are pairwise distinct, are exactly the integers 0 through 4
in that order, and `NOT_OPEN` is the zero value. -/
theorem open_state_encoding :
    (∀ s : OpenState, s ∈ [OpenState.NOT_OPEN, OpenState.OPEN_READ_ONLY,
      OpenState.OPEN_READ_WRITE, OpenState.OPEN_SINGLE_REDUCE,
      OpenState.OPEN_MULTI_REDUCE]) ∧
    [OpenState.NOT_OPEN, OpenState.OPEN_READ_ONLY, OpenState.OPEN_READ_WRITE,
      OpenState.OPEN_SINGLE_REDUCE, OpenState.OPEN_MULTI_REDUCE].map OpenState.val
      = [0, 1, 2, 3, 4] ∧
    Function.Injective OpenState.val ∧
    (∀ n : Nat, (∃ s : OpenState, s.val = n) ↔ n ≤ 4) ∧
    (∀ s : OpenState, s.val = 0 ↔ s = OpenState.NOT_OPEN) := by
  refine ⟨?_, rfl, ?_, ?_, ?_⟩
  · intro s; cases s <;> decide
  · intro a b h; cases a <;> cases b <;> first | rfl | exact absurd h (by decide)
  · intro n
    constructor
    · rintro ⟨s, rfl⟩; cases s <;> decide
    · intro hn
      have h : n = 0 ∨ n = 1 ∨ n = 2 ∨ n = 3 ∨ n = 4 := by omega
      rcases h with h | h | h | h | h
      · exact ⟨OpenState.NOT_OPEN, h.symm⟩
      · exact ⟨OpenState.OPEN_READ_ONLY, h.symm⟩
      · exact ⟨OpenState.OPEN_READ_WRITE, h.symm⟩
      · exact ⟨OpenState.OPEN_SINGLE_REDUCE, h.symm⟩
      · exact ⟨OpenState.OPEN_MULTI_REDUCE, h.symm⟩
  · intro s; cases s <;> decide

/-- C8: `DependenceType` consists of `NO_DEPENDENCE` plus exactly the four
dependence kinds true, anti, atomic and simultaneous; the five encodings are
pairwise distinct, are exactly the integers 0 through 4, and `NO_DEPENDENCE`
is the only value encoded as 0, so a value is non-zero if and only if it
denotes one of the four dependences. -/
theorem dependence_type_encoding :
    (∀ d : DependenceType, d = DependenceType.NO_DEPENDENCE ∨
      d ∈ [DependenceType.TRUE_DEPENDENCE, DependenceType.ANTI_DEPENDENCE,
        DependenceType.ATOMIC_DEPENDENCE, DependenceType.SIMULTANEOUS_DEPENDENCE]) ∧
    [DependenceType.NO_DEPENDENCE, DependenceType.TRUE_DEPENDENCE,
      DependenceType.ANTI_DEPENDENCE, DependenceType.ATOMIC_DEPENDENCE,
      DependenceType.SIMULTANEOUS_DEPENDENCE].map DependenceType.val
      = [0, 1, 2, 3, 4] ∧
    Function.Injective DependenceType.val ∧
    (∀ n : Nat, (∃ d : DependenceType, d.val = n) ↔ n ≤ 4) ∧
    (∀ d : DependenceType, d.val = 0 ↔ d = DependenceType.NO_DEPENDENCE) ∧
    (∀ d : DependenceType, d.val ≠ 0 ↔
      d ∈ [DependenceType.TRUE_DEPENDENCE, DependenceType.ANTI_DEPENDENCE,
        DependenceType.ATOMIC_DEPENDENCE, DependenceType.SIMULTANEOUS_DEPENDENCE]) := by
  refine ⟨?_, rfl, ?_, ?_, ?_, ?_⟩
  · intro d; cases d <;> decide
  · intro a b h; cases a <;> cases b <;> first | rfl | exact absurd h (by decide)
  · intro n
    constructor
    · rintro ⟨d, rfl⟩; cases d <;> decide
    · intro hn
      have h : n = 0 ∨ n = 1 ∨ n = 2 ∨ n = 3 ∨ n = 4 := by omega
      rcases h with h | h | h | h | h
      · exact ⟨DependenceType.NO_DEPENDENCE, h.symm⟩
      · exact ⟨DependenceType.TRUE_DEPENDENCE, h.symm⟩
      · exact ⟨DependenceType.ANTI_DEPENDENCE, h.symm⟩
      · exact ⟨DependenceType.ATOMIC_DEPENDENCE, h.symm⟩
      · exact ⟨DependenceType.SIMULTANEOUS_DEPENDENCE, h.symm⟩
  · intro d; cases d <;> decide
  · intro d; cases d <;> decide

/-- C9: the constants of the `FieldMask` instantiation are mutually consistent:
`FIELD_MASK = 2^FIELD_SHIFT - 1 = 63`, `2^FIELD_SHIFT` is the bit width of
`FIELD_TYPE` (64), and `FIELD_ALL_ONES = 2^(2^FIELD_SHIFT) - 1`, the largest
64-bit unsigned value. -/
theorem field_constants_consistent :
    FIELD_MASK = 2 ^ FIELD_SHIFT - 1 ∧ FIELD_MASK = 63 ∧
    2 ^ FIELD_SHIFT = FIELD_TYPE_BITS ∧ FIELD_TYPE_BITS = 64 ∧
    FIELD_ALL_ONES = 2 ^ (2 ^ FIELD_SHIFT) - 1 ∧
    FIELD_ALL_ONES = 2 ^ FIELD_TYPE_BITS - 1 ∧
    FIELD_ALL_ONES = 18446744073709551615 ∧
    (∀ k : Nat, FIELD_ALL_ONES.testBit k = decide (k < 64)) := by
  refine ⟨by decide, by decide, by decide, rfl, by decide, by decide, by decide, ?_⟩
  intro k
  have h : FIELD_ALL_ONES = 2 ^ 64 - 1 := by decide
  rw [h, Nat.testBit_two_pow_sub_one]

/-- C10: for every field index `i < MAX_FIELDS`, the word index
`i >> FIELD_SHIFT` is below `MAX_FIELDS >> FIELD_SHIFT = 32`, the bit offset
`i & FIELD_MASK` is below `2^FIELD_SHIFT = 64`, and
`i = ((i >> FIELD_SHIFT) << FIELD_SHIFT) + (i & FIELD_MASK)`; distinct indices
never share a (word index, bit offset) pair, and every pair `(w, b)` with
`w < 32`, `b < 64` is the image of exactly one index. -/
theorem field_index_decomposition :
    (∀ i : Nat, i < MAX_FIELDS →
      i >>> FIELD_SHIFT < MAX_FIELDS >>> FIELD_SHIFT ∧
      i >>> FIELD_SHIFT < 32 ∧
      i &&& FIELD_MASK < 2 ^ FIELD_SHIFT ∧
      i &&& FIELD_MASK < 64 ∧
      i = ((i >>> FIELD_SHIFT) <<< FIELD_SHIFT) + (i &&& FIELD_MASK)) ∧
    (∀ i j : Nat, i < MAX_FIELDS → j < MAX_FIELDS →
      i >>> FIELD_SHIFT = j >>> FIELD_SHIFT →
      i &&& FIELD_MASK = j &&& FIELD_MASK → i = j) ∧
    (∀ w b : Nat, w < 32 → b < 64 →
      ∃! i : Nat, i < MAX_FIELDS ∧ i >>> FIELD_SHIFT = w ∧ i &&& FIELD_MASK = b) := by
  have hA : ∀ i : Nat, i &&& FIELD_MASK = i % 64 := by
    intro i
    have h : FIELD_MASK = 2 ^ 6 - 1 := by decide
    rw [h, Nat.and_pow_two_sub_one_eq_mod]
  have hS : ∀ i : Nat, i >>> FIELD_SHIFT = i / 64 := by
    intro i
    simp [FIELD_SHIFT, Nat.shiftRight_eq_div_pow]
  have hL : ∀ i : Nat, i <<< FIELD_SHIFT = i * 64 := by
    intro i
    simp [FIELD_SHIFT, Nat.shiftLeft_eq]
  have hM : MAX_FIELDS = 2048 := rfl
  have hP : 2 ^ FIELD_SHIFT = 64 := by decide
  refine ⟨?_, ?_, ?_⟩
  · intro i hi
    rw [hS, hS, hA, hL, hP, hM]
    rw [hM] at hi
    refine ⟨?_, ?_, ?_, ?_, ?_⟩ <;> omega
  · intro i j _ _ h1 h2
    rw [hS, hS] at h1
    rw [hA, hA] at h2
    omega
  · intro w b hw hb
    refine ⟨w * 64 + b, ⟨?_, ?_, ?_⟩, ?_⟩
    · rw [hM]; omega
    · rw [hS]; omega
    · rw [hA]; omega
    · rintro j ⟨_, h1, h2⟩
      rw [hS] at h1
      rw [hA] at h2
      omega

/-- Witness for C10 at field index 130 (word 2, bit 2). -/
theorem field_index_decomposition_witness :
    130 < MAX_FIELDS ∧ 130 >>> FIELD_SHIFT < 32 ∧ 130 &&& FIELD_MASK < 64 ∧
    130 = ((130 >>> FIELD_SHIFT) <<< FIELD_SHIFT) + (130 &&& FIELD_MASK) :=
  ⟨by decide, (field_index_decomposition.1 130 (by decide)).2.1,
    (field_index_decomposition.1 130 (by decide)).2.2.2.1,
    (field_index_decomposition.1 130 (by decide)).2.2.2.2⟩

end Legion
